import Mathlib

/-!
Verification development for the Budget Sakkie price pipeline
(`src/scripts/data_extractor.py` and `src/scripts/data_integration.py`).

Prices are modelled as exact rationals (`ℚ`); Python floats in this code
only ever hold two-decimal currency values, so the arithmetic used
(comparison, min, max, subtraction, sum, division) is exact.
Text is modelled as `String`, with Python's `str.lower`/`str.strip`/`in`
given explicit character-level definitions (ASCII behaviour).
-/

namespace BudgetSakkie

/-! ### Python string primitives -/

/-- Python `str.lower()` (ASCII): lowercase every character. -/
def pyLower (s : String) : String := ⟨s.data.map Char.toLower⟩

/-- Strip leading and trailing whitespace from a character list. -/
def stripChars (l : List Char) : List Char :=
  ((l.dropWhile Char.isWhitespace).reverse.dropWhile Char.isWhitespace).reverse

/-- Python `str.strip()`: remove leading and trailing whitespace. -/
def pyStrip (s : String) : String := ⟨stripChars s.data⟩

/-- Does `hay` start with `pat`? -/
def patAt : List Char → List Char → Bool
  | [], _ => true
  | _ :: _, [] => false
  | c :: cs, d :: ds => c = d && patAt cs ds

/-- Does `pat` occur as a contiguous substring of `hay`?  Python `pat in hay`. -/
def patIn (pat : List Char) : List Char → Bool
  | [] => pat.isEmpty
  | c :: t => patAt pat (c :: t) || patIn pat t

/-- Python `pat in hay` on strings. -/
def pyContains (hay pat : String) : Bool := patIn pat.data hay.data

/-! ### Data model

`ProductRow` is the dict-shaped record flowing through
`data_integration.py` (one CSV row after `load_csv_data`'s price
conversion), with the fields the scripts actually read. -/

structure ProductRow where
  product_id : String
  product_name : String
  current_price : ℚ
  availability_status : String
  last_updated : String
  retailer : String
  category : String
  unit : String
  image_url : String
deriving DecidableEq, Repr

/-- A raw CSV row before `load_csv_data`'s conversion: `priceParse` is the
result of Python `float(row['current_price'])` — `some q` on success,
`none` when that call raises `ValueError`/`TypeError`. -/
structure RawRow where
  product_id : String
  product_name : String
  priceParse : Option ℚ
  availability_status : String
  last_updated : String
  retailer : String
  category : String
  unit : String
  image_url : String
deriving DecidableEq, Repr

/-- The row conversion inside `load_csv_data` (data_integration.py
lines 54–61): `row['current_price'] = float(...)`, and on parse failure
`row['current_price'] = 0.0`.  The row is appended either way. -/
def convertRow (r : RawRow) : ProductRow :=
  { product_id := r.product_id
    product_name := r.product_name
    current_price := r.priceParse.getD 0
    availability_status := r.availability_status
    last_updated := r.last_updated
    retailer := r.retailer
    category := r.category
    unit := r.unit
    image_url := r.image_url }

/-- `load_csv_data`: convert every row's price, keeping all rows. -/
def load_csv_data (rows : List RawRow) : List ProductRow := rows.map convertRow

/-! ### Aggregator: `find_best_prices` (data_integration.py lines 70–111) -/

/-- `product['product_name'].lower().strip()` — the grouping key. -/
def normName (s : String) : String := pyStrip (pyLower s)

/-- One step of the grouping loop: append `p` to the group keyed `k`,
creating the group at the end when the key is new.  This is exactly how a
Python dict (insertion-ordered) behaves under
`product_groups[key].append(product)`. -/
def insertGroup (gs : List (String × List ProductRow)) (k : String) (p : ProductRow) :
    List (String × List ProductRow) :=
  match gs with
  | [] => [(k, [p])]
  | (k', ps) :: rest =>
    if k' = k then (k', ps ++ [p]) :: rest else (k', ps) :: insertGroup rest k p

/-- The grouping loop of `find_best_prices`: partition records by
normalized name, preserving encounter order of keys and of members. -/
def groupProducts (ps : List ProductRow) : List (String × List ProductRow) :=
  ps.foldl (fun gs p => insertGroup gs (normName p.product_name) p) []

/-- One comparison step of Python `min` with `key=lambda p:
p['current_price']`: the candidate is replaced only on a strictly
smaller key. -/
def pickMin (b q : ProductRow) : ProductRow :=
  if q.current_price < b.current_price then q else b

/-- Python `min(products, key=lambda p: p['current_price'])`: scan left to
right with `pickMin`, so the first record attaining the minimum wins.
`none` on the empty list (Python would raise). -/
def minByPrice : List ProductRow → Option ProductRow
  | [] => none
  | p :: ps => some (ps.foldl pickMin p)

/-- `[p['current_price'] for p in products if p['current_price'] > 0]`. -/
def posPrices (ps : List ProductRow) : List ℚ :=
  (ps.filter (fun p => 0 < p.current_price)).map (fun p => p.current_price)

/-- Python `min` of a nonempty list of rationals. -/
def listMinQ (x : ℚ) (xs : List ℚ) : ℚ := xs.foldl min x

/-- Python `max` of a nonempty list of rationals. -/
def listMaxQ (x : ℚ) (xs : List ℚ) : ℚ := xs.foldl max x

/-- `min(prices) if prices else 0`. -/
def minOrZero : List ℚ → ℚ
  | [] => 0
  | x :: xs => listMinQ x xs

/-- `max(prices) if prices else 0`. -/
def maxOrZero : List ℚ → ℚ
  | [] => 0
  | x :: xs => listMaxQ x xs

/-- The per-group value stored in the `best_prices` dict. -/
structure PriceInfo where
  best_product : ProductRow
  all_prices : List ProductRow
  savings : ℚ
  range_min : ℚ
  range_max : ℚ
deriving DecidableEq, Repr

/-- The body of the aggregation loop for one group (lines 86–109):
`if not products: continue`; first-minimum selection; savings over the
positive prices only; `price_range` min/max defaulting to 0. -/
def groupResult (ps : List ProductRow) : Option PriceInfo :=
  match minByPrice ps with
  | none => none
  | some best =>
    let prices := posPrices ps
    some
      { best_product := best
        all_prices := ps
        savings := if 1 < prices.length then maxOrZero prices - minOrZero prices else 0
        range_min := minOrZero prices
        range_max := maxOrZero prices }

/-- `find_best_prices`: group by normalized name, then build one
`PriceInfo` per (nonempty) group, in group-encounter order. -/
def find_best_prices (all_products : List ProductRow) : List (String × PriceInfo) :=
  (groupProducts all_products).filterMap fun g =>
    (groupResult g.2).map fun info => (g.1, info)

/-! ### Collector-side shaping: `data_extractor.py` -/

/-- Numeric value of a digit run (most significant first). -/
def digitsVal (l : List Char) : ℕ := l.foldl (fun a c => 10 * a + (c.toNat - 48)) 0

/-- Value of the regex capture group of
`re.search(r'R?\s*(\d+(?:\.\d{2})?)', text)` given that `l` starts at the
first digit of `text`: the group is the maximal digit run from that digit,
extended by `.DD` exactly when a dot followed by two digits comes next
(the optional `R?\s*` part never changes the captured group, and `\d+` is
greedy with the cents group optional, so no backtracking shrinks the run). -/
def tokenVal (l : List Char) : ℚ :=
  let run := l.takeWhile Char.isDigit
  let rest := l.dropWhile Char.isDigit
  match rest with
  | '.' :: d1 :: d2 :: _ =>
    if d1.isDigit && d2.isDigit then
      (digitsVal run : ℚ) + ((10 * (d1.toNat - 48) + (d2.toNat - 48) : ℕ) : ℚ) / 100
    else (digitsVal run : ℚ)
  | _ => (digitsVal run : ℚ)

/-- Scan for the first digit; `none` when the text has no digit
(`re.search` finds no match exactly then, since every match of the
pattern contains a digit and any digit starts a match). -/
def scanPrice : List Char → Option ℚ
  | [] => none
  | c :: cs => if c.isDigit then some (tokenVal (c :: cs)) else scanPrice cs

/-- `sanitize_price` (data_extractor.py lines 174–186): `None` for empty
text, else search `text.replace(',', '')` for the first currency-like
numeric token; `float()` on the captured group never fails, so the
`except ValueError` branch is dead. -/
def sanitize_price (price_text : String) : Option ℚ :=
  if price_text = "" then none
  else scanPrice (price_text.data.filter (fun c => c ≠ ','))

/-- The three keyword lists of `parse_availability`. -/
def inStockTerms : List String := ["in stock", "available", "yes"]

def lowStockTerms : List String := ["low stock", "limited", "few left"]

def outStockTerms : List String := ["out of stock", "unavailable", "sold out"]

/-- Python `any(term in text for term in terms)`. -/
def anyTermIn (text : String) (terms : List String) : Bool :=
  terms.any (fun t => pyContains text t)

/-- `parse_availability` (data_extractor.py lines 203–217): empty text →
`"unknown"`; otherwise lowercase and test the three keyword lists in
order, defaulting to `"in_stock"`. -/
def parse_availability (availability_text : String) : String :=
  if availability_text = "" then "unknown"
  else
    let text := pyLower availability_text
    if anyTermIn text inStockTerms then "in_stock"
    else if anyTermIn text lowStockTerms then "low_stock"
    else if anyTermIn text outStockTerms then "out_of_stock"
    else "in_stock"

/-- The `Product` dataclass of `data_extractor.py`. -/
structure Product where
  product_name : String
  current_price : ℚ
  availability_status : String
  last_updated : String
  retailer : String
  category : String
  unit : String := "each"
  image_url : String := ""
  product_id : String := ""
deriving DecidableEq, Repr

/-- The fixed availability enum checked by the validator. -/
def availabilityEnum : List String := ["in_stock", "low_stock", "out_of_stock", "unknown"]

/-- The error strings `validate_data_integrity` appends for record `i`
(data_extractor.py lines 353–365).  `not product.current_price` is
Python-falsy exactly at price 0, kept as the literal disjunction. -/
def recordErrors (i : ℕ) (p : Product) : List String :=
  (if p.product_name = "" then
    ["Product " ++ toString i ++ ": Missing product name"] else []) ++
  (if p.current_price = 0 ∨ p.current_price ≤ 0 then
    ["Product " ++ toString i ++ ": Invalid price: " ++ toString p.current_price] else []) ++
  (if p.retailer = "" then
    ["Product " ++ toString i ++ ": Missing retailer"] else []) ++
  (if p.availability_status ∉ availabilityEnum then
    ["Product " ++ toString i ++ ": Invalid availability status: " ++ p.availability_status]
   else [])

/-- The `for i, product in enumerate(products)` accumulation loop. -/
def validationErrors : ℕ → List Product → List String
  | _, [] => []
  | i, p :: ps => recordErrors i p ++ validationErrors (i + 1) ps

/-- `validate_data_integrity` (data_extractor.py lines 349–376):
`is_valid = len(errors) == 0`, returned with the error list. -/
def validate_data_integrity (products : List Product) : Bool × List String :=
  let errors := validationErrors 0 products
  (errors.length == 0, errors)

/-! ### Presentation adapter: `generate_mock_data_update`
(data_integration.py lines 113–190) -/

/-- The `retailer_mapping` dict lookup with default `'unknown'`. -/
def retailer_mapping (name : String) : String :=
  if name = "Checkers" then "checkers"
  else if name = "Pick n Pay" then "pick-n-pay"
  else if name = "Woolworths" then "woolworths"
  else if name = "Shoprite" then "shoprite"
  else if name = "SPAR" then "spar"
  else "unknown"

/-- `get_retailer_color` (lines 192–201): dict lookup, default grey. -/
def get_retailer_color (retailer_name : String) : String :=
  if retailer_name = "Checkers" then "#00A651"
  else if retailer_name = "Pick n Pay" then "#E31837"
  else if retailer_name = "Woolworths" then "#00A86B"
  else if retailer_name = "Shoprite" then "#FF6B35"
  else if retailer_name = "SPAR" then "#006B3F"
  else "#6B7280"

/-- A product entry of the presentation data shape.  The `image` field
holds `best_product['image_url']` (the CSV rows always carry that key, so
the `.get` default URL is never taken for them). -/
structure ProductEntry where
  id : String
  name : String
  brand : String
  category : String
  barcode : String
  image : String
  unit : String
  unitSize : String
deriving DecidableEq, Repr

/-- A price entry of the presentation data shape.  The retailer's fixed
`logo` URL and `locations` block are constant-format presentation strings
built from the same fields and are projected to the id/name/color
triple here. -/
structure PriceEntry where
  id : String
  productId : String
  retailerId : String
  retailerName : String
  retailerColor : String
  price : ℚ
  onSale : Bool
  lastUpdated : String
  availability : String
deriving DecidableEq, Repr

/-- The product entry built for `product_id = pid` (lines 136–145). -/
def mkProductEntry (pid : ℕ) (best : ProductRow) : ProductEntry :=
  { id := toString pid
    name := best.product_name
    brand := "Generic"
    category := best.category
    barcode := "600123456789" ++ toString pid
    image := best.image_url
    unit := "each"
    unitSize := best.unit }

/-- The price entry built for `product_id = pid`, `price_id = prid`
(lines 153–174); `availability_status.replace('_', '-')` is the
character map at the end. -/
def mkPriceEntry (pid prid : ℕ) (r : ProductRow) : PriceEntry :=
  { id := toString pid ++ "-" ++ toString prid
    productId := toString pid
    retailerId := retailer_mapping r.retailer
    retailerName := r.retailer
    retailerColor := get_retailer_color r.retailer
    price := r.current_price
    onSale := false
    lastUpdated := r.last_updated
    availability := ⟨r.availability_status.data.map (fun c => if c = '_' then '-' else c)⟩ }

/-- The inner loop over `price_data['all_prices']`, incrementing
`price_id` after each entry. -/
def priceEntriesFor (pid : ℕ) : ℕ → List ProductRow → List PriceEntry
  | _, [] => []
  | prid, r :: rs => mkPriceEntry pid prid r :: priceEntriesFor pid (prid + 1) rs

/-- The outer loop over the (already truncated) group list, threading the
`product_id` and `price_id` counters. -/
def buildEntries : ℕ → ℕ → List (String × PriceInfo) → List ProductEntry × List PriceEntry
  | _, _, [] => ([], [])
  | pid, prid, g :: rest =>
    let entry := mkProductEntry pid g.2.best_product
    let pes := priceEntriesFor pid prid g.2.all_prices
    let built := buildEntries (pid + 1) (prid + g.2.all_prices.length) rest
    (entry :: built.1, pes ++ built.2)

/-- The `summary` block of the returned dict (the `lastUpdated` wall-clock
timestamp is environment input and not modelled). -/
structure MockSummary where
  totalProducts : ℕ
  totalPrices : ℕ
  avgSavings : ℚ
deriving DecidableEq, Repr

/-- The dict returned by `generate_mock_data_update`. -/
structure MockUpdate where
  products : List ProductEntry
  prices : List PriceEntry
  summary : MockSummary
deriving DecidableEq, Repr

/-- `sum(data['savings'] for data in best_prices.values())`. -/
def sumSavings (best_prices : List (String × PriceInfo)) : ℚ :=
  (best_prices.map (fun g => g.2.savings)).sum

/-- `generate_mock_data_update`: map the first 20 groups
(`list(best_prices.items())[:20]`) with counters starting at 1, and build
the summary; `avgSavings` divides by the number of ALL groups, guarded by
`if best_prices else 0`. -/
def generate_mock_data_update (best_prices : List (String × PriceInfo)) : MockUpdate :=
  let built := buildEntries 1 1 (best_prices.take 20)
  { products := built.1
    prices := built.2
    summary :=
      { totalProducts := built.1.length
        totalPrices := built.2.length
        avgSavings :=
          if best_prices = [] then 0
          else sumSavings best_prices / (best_prices.length : ℚ) } }

/-! ### Specification-side predicates -/

/-- `b` is the first member of `l` attaining the minimum
`current_price`: everything before it is strictly more expensive and
everything after it at least as expensive. -/
def FirstMin (l : List ProductRow) (b : ProductRow) : Prop :=
  ∃ l₁ l₂, l = l₁ ++ b :: l₂ ∧
    (∀ q ∈ l₁, b.current_price < q.current_price) ∧
    (∀ q ∈ l₂, b.current_price ≤ q.current_price)

/-- Well-formedness of the `product_groups` dict: distinct keys, and
every group nonempty with each member keyed by its normalized name. -/
def GroupWF (gs : List (String × List ProductRow)) : Prop :=
  (gs.map Prod.fst).Nodup ∧
    ∀ g ∈ gs, g.2 ≠ [] ∧ ∀ r ∈ g.2, normName r.product_name = g.1

/-! ### Concrete demonstration data used by the witnesses -/

/-- Three records of one group, with a price tie on the first two. -/
def rowTie1 : ProductRow := ⟨"a1", "banana", 5, "in_stock", "t1", "Checkers", "Fresh", "kg", ""⟩

def rowTie2 : ProductRow := ⟨"a2", "banana", 5, "in_stock", "t2", "SPAR", "Fresh", "kg", ""⟩

def rowTie3 : ProductRow := ⟨"a3", "banana", 7, "in_stock", "t3", "Shoprite", "Fresh", "kg", ""⟩

/-- The aggregation result for `[rowTie1, rowTie2, rowTie3]`. -/
def infoTie : PriceInfo := ⟨rowTie1, [rowTie1, rowTie2, rowTie3], 2, 5, 7⟩

/-- The spec's savings example: prices 19.99, 24.99, 26.99. -/
def rowBread1 : ProductRow :=
  ⟨"b1", "bread", 1999/100, "in_stock", "t1", "Checkers", "Bakery", "700g", ""⟩

def rowBread2 : ProductRow :=
  ⟨"b2", "bread", 2499/100, "in_stock", "t2", "SPAR", "Bakery", "700g", ""⟩

def rowBread3 : ProductRow :=
  ⟨"b3", "bread", 2699/100, "in_stock", "t3", "Shoprite", "Bakery", "700g", ""⟩

/-- The aggregation result for the bread group: savings 7.00. -/
def infoBread : PriceInfo :=
  ⟨rowBread1, [rowBread1, rowBread2, rowBread3], 7, 1999/100, 2699/100⟩

/-- A raw CSV row whose price field does not parse. -/
def rawBad : RawRow := ⟨"r1", "milk", none, "in_stock", "t1", "Checkers", "Dairy", "1L", ""⟩

/-- A raw CSV row with a valid price in the same group. -/
def rawGood : RawRow := ⟨"r2", "milk", some 5, "in_stock", "t2", "SPAR", "Dairy", "1L", ""⟩

/-- The aggregation result for the milk group after `load_csv_data`:
the unparseable record (price 0) wins the best-price selection. -/
def infoMilk : PriceInfo := ⟨convertRow rawBad, [convertRow rawBad, convertRow rawGood], 0, 5, 5⟩

/-- Two records whose names agree only after normalization. -/
def rowMix1 : ProductRow := ⟨"m1", "Banana", 5, "in_stock", "t1", "Checkers", "Fresh", "kg", ""⟩

def rowMix2 : ProductRow := ⟨"m2", "banana ", 6, "in_stock", "t2", "SPAR", "Fresh", "kg", ""⟩

/-! ### First-minimum selection (claim C1 infrastructure) -/

theorem FirstMin.mem {l : List ProductRow} {b : ProductRow} (h : FirstMin l b) : b ∈ l := by
  obtain ⟨l₁, l₂, rfl, -, -⟩ := h
  exact List.mem_append.mpr (Or.inr (List.mem_cons_self _ _))

theorem FirstMin.le_all {l : List ProductRow} {b : ProductRow} (h : FirstMin l b) :
    ∀ q ∈ l, b.current_price ≤ q.current_price := by
  obtain ⟨l₁, l₂, rfl, h₁, h₂⟩ := h
  intro q hq
  rcases List.mem_append.mp hq with hq₁ | hq₂
  · exact le_of_lt (h₁ q hq₁)
  · rcases List.mem_cons.mp hq₂ with rfl | hq₃
    · exact le_refl _
    · exact h₂ q hq₃

theorem foldl_pickMin_firstMin (ps : List ProductRow) :
    ∀ p : ProductRow, FirstMin (p :: ps) (ps.foldl pickMin p) := by
  induction ps with
  | nil =>
    intro p
    exact ⟨[], [], rfl, by simp, by simp⟩
  | cons q ps ih =>
    intro p
    simp only [List.foldl_cons, pickMin]
    by_cases hq : q.current_price < p.current_price
    · rw [if_pos hq]
      obtain ⟨l₁, l₂, heq, h₁, h₂⟩ := ih q
      have hle : (ps.foldl pickMin q).current_price ≤ q.current_price := by
        cases l₁ with
        | nil =>
          injection heq with h1 _
          rw [← h1]
        | cons a t =>
          injection heq with h1 _
          exact le_of_lt (h1 ▸ h₁ a (List.mem_cons_self a t))
      refine ⟨p :: l₁, l₂, ?_, ?_, h₂⟩
      · rw [List.cons_append, ← heq]
      · intro x hx
        rcases List.mem_cons.mp hx with rfl | hx'
        · exact lt_of_le_of_lt hle hq
        · exact h₁ x hx'
    · rw [if_neg hq]
      have hpq : p.current_price ≤ q.current_price := le_of_not_lt hq
      obtain ⟨l₁, l₂, heq, h₁, h₂⟩ := ih p
      cases l₁ with
      | nil =>
        injection heq with h1 h2
        refine ⟨[], q :: ps, by rw [← h1]; rfl, by simp, ?_⟩
        intro x hx
        rcases List.mem_cons.mp hx with rfl | hx'
        · exact h1 ▸ hpq
        · exact h₂ x (h2 ▸ hx')
      | cons a t =>
        injection heq with h1 h2
        have hbp : (ps.foldl pickMin p).current_price < p.current_price :=
          h1 ▸ h₁ a (List.mem_cons_self a t)
        refine ⟨p :: q :: t, l₂, ?_, ?_, h₂⟩
        · rw [List.cons_append, List.cons_append]
          exact congrArg (fun l => p :: q :: l) h2
        · intro x hx
          rcases List.mem_cons.mp hx with rfl | hx'
          · exact hbp
          · rcases List.mem_cons.mp hx' with rfl | hx''
            · exact lt_of_lt_of_le hbp hpq
            · exact h₁ x (List.mem_cons_of_mem a hx'')

theorem minByPrice_firstMin {l : List ProductRow} {b : ProductRow}
    (h : minByPrice l = some b) : FirstMin l b := by
  cases l with
  | nil => simp [minByPrice] at h
  | cons p ps =>
    simp only [minByPrice, Option.some.injEq] at h
    exact h ▸ foldl_pickMin_firstMin ps p

/-! ### Grouping invariants (claims C2, C3, C6 infrastructure) -/

theorem insertGroup_keys (gs : List (String × List ProductRow)) (k : String) (p : ProductRow) :
    (insertGroup gs k p).map Prod.fst =
      if k ∈ gs.map Prod.fst then gs.map Prod.fst else gs.map Prod.fst ++ [k] := by
  induction gs with
  | nil => simp [insertGroup]
  | cons g rest ih =>
    obtain ⟨k', ps⟩ := g
    by_cases hk : k' = k
    · subst hk
      simp [insertGroup]
    · simp only [insertGroup, if_neg hk, List.map_cons, ih, List.mem_cons]
      by_cases hmem : k ∈ rest.map Prod.fst
      · simp [hmem, Ne.symm hk]
      · simp [hmem, Ne.symm hk]

theorem mem_insertGroup {gs : List (String × List ProductRow)} {k : String} {p : ProductRow}
    {g : String × List ProductRow} (hg : g ∈ insertGroup gs k p) :
    g ∈ gs ∨ (∃ ps, (k, ps) ∈ gs ∧ g = (k, ps ++ [p])) ∨ g = (k, [p]) := by
  induction gs with
  | nil =>
    simp only [insertGroup, List.mem_singleton] at hg
    exact Or.inr (Or.inr hg)
  | cons g₀ rest ih =>
    obtain ⟨k', ps⟩ := g₀
    by_cases hk : k' = k
    · subst hk
      simp only [insertGroup, if_pos rfl] at hg
      rcases List.mem_cons.mp hg with rfl | h'
      · exact Or.inr (Or.inl ⟨ps, List.mem_cons_self _ _, rfl⟩)
      · exact Or.inl (List.mem_cons_of_mem _ h')
    · simp only [insertGroup, if_neg hk] at hg
      rcases List.mem_cons.mp hg with rfl | h'
      · exact Or.inl (List.mem_cons_self _ _)
      · rcases ih h' with h | ⟨ps', hps', rfl⟩ | rfl
        · exact Or.inl (List.mem_cons_of_mem _ h)
        · exact Or.inr (Or.inl ⟨ps', List.mem_cons_of_mem _ hps', rfl⟩)
        · exact Or.inr (Or.inr rfl)

theorem insertGroup_wf {gs : List (String × List ProductRow)} (h : GroupWF gs)
    (p : ProductRow) : GroupWF (insertGroup gs (normName p.product_name) p) := by
  obtain ⟨hnd, hmem⟩ := h
  constructor
  · rw [insertGroup_keys]
    by_cases hin : normName p.product_name ∈ gs.map Prod.fst
    · rwa [if_pos hin]
    · rw [if_neg hin]
      exact List.Nodup.append hnd (List.nodup_singleton _)
        (fun a ha hb => hin (by rwa [List.mem_singleton.mp hb] at ha))
  · intro g hg
    rcases mem_insertGroup hg with h' | ⟨ps, hps, rfl⟩ | rfl
    · exact hmem g h'
    · obtain ⟨-, hkeys⟩ := hmem _ hps
      refine ⟨by simp, ?_⟩
      intro r hr
      rcases List.mem_append.mp hr with h' | h'
      · exact hkeys r h'
      · rw [List.mem_singleton.mp h']
    · exact ⟨by simp, by intro r hr; rw [List.mem_singleton.mp hr]⟩

theorem foldl_group_wf (ps : List ProductRow) :
    ∀ gs, GroupWF gs →
      GroupWF (ps.foldl (fun gs p => insertGroup gs (normName p.product_name) p) gs) := by
  induction ps with
  | nil => intro gs h; exact h
  | cons p ps ih => intro gs h; exact ih _ (insertGroup_wf h p)

theorem groupProducts_wf (ps : List ProductRow) : GroupWF (groupProducts ps) :=
  foldl_group_wf ps [] ⟨List.nodup_nil, by simp⟩

theorem insertGroup_preserves {gs : List (String × List ProductRow)} {k₀ : String}
    {g : List ProductRow} (hg : (k₀, g) ∈ gs) (k : String) (p : ProductRow) :
    ∃ g', (k₀, g') ∈ insertGroup gs k p ∧ ∀ r ∈ g, r ∈ g' := by
  induction gs with
  | nil => simp at hg
  | cons g₁ rest ih =>
    obtain ⟨k', ps⟩ := g₁
    by_cases hk : k' = k
    · subst hk
      simp only [insertGroup, if_pos rfl]
      rcases List.mem_cons.mp hg with heq | h'
      · injection heq with e1 e2
        subst e1; subst e2
        exact ⟨g ++ [p], List.mem_cons_self _ _, fun r hr => List.mem_append.mpr (Or.inl hr)⟩
      · exact ⟨g, List.mem_cons_of_mem _ h', fun r hr => hr⟩
    · simp only [insertGroup, if_neg hk]
      rcases List.mem_cons.mp hg with heq | h'
      · exact ⟨g, heq ▸ List.mem_cons_self _ _, fun r hr => hr⟩
      · obtain ⟨g', hg', hsub⟩ := ih h'
        exact ⟨g', List.mem_cons_of_mem _ hg', hsub⟩

theorem insertGroup_self (gs : List (String × List ProductRow)) (k : String) (p : ProductRow) :
    ∃ g', (k, g') ∈ insertGroup gs k p ∧ p ∈ g' := by
  induction gs with
  | nil => exact ⟨[p], by simp [insertGroup], by simp⟩
  | cons g₁ rest ih =>
    obtain ⟨k', ps⟩ := g₁
    by_cases hk : k' = k
    · subst hk
      exact ⟨ps ++ [p], by simp [insertGroup], by simp⟩
    · obtain ⟨g', hg', hp⟩ := ih
      exact ⟨g', by simp only [insertGroup, if_neg hk]; exact List.mem_cons_of_mem _ hg', hp⟩

theorem foldl_group_preserves (ps : List ProductRow) :
    ∀ gs k g, (k, g) ∈ gs →
      ∃ g', (k, g') ∈ ps.foldl (fun gs p => insertGroup gs (normName p.product_name) p) gs ∧
        ∀ r ∈ g, r ∈ g' := by
  induction ps with
  | nil => intro gs k g hg; exact ⟨g, hg, fun r hr => hr⟩
  | cons p ps ih =>
    intro gs k g hg
    obtain ⟨g₁, hg₁, hsub₁⟩ := insertGroup_preserves hg (normName p.product_name) p
    obtain ⟨g₂, hg₂, hsub₂⟩ := ih _ k g₁ hg₁
    exact ⟨g₂, hg₂, fun r hr => hsub₂ r (hsub₁ r hr)⟩

theorem foldl_group_complete (ps : List ProductRow) :
    ∀ gs r, r ∈ ps →
      ∃ g', (normName r.product_name, g') ∈
          ps.foldl (fun gs p => insertGroup gs (normName p.product_name) p) gs ∧ r ∈ g' := by
  induction ps with
  | nil => intro gs r hr; simp at hr
  | cons p t ih =>
    intro gs r hr
    rcases List.mem_cons.mp hr with rfl | hr'
    · obtain ⟨g₁, hg₁, hp⟩ := insertGroup_self gs (normName r.product_name) r
      obtain ⟨g₂, hg₂, hsub⟩ := foldl_group_preserves t _ _ _ hg₁
      exact ⟨g₂, hg₂, hsub r hp⟩
    · exact ih _ r hr'

theorem groupProducts_complete {ps : List ProductRow} {r : ProductRow} (hr : r ∈ ps) :
    ∃ g, (normName r.product_name, g) ∈ groupProducts ps ∧ r ∈ g :=
  foldl_group_complete ps [] r hr

theorem nodup_keys_unique {gs : List (String × List ProductRow)}
    (hnd : (gs.map Prod.fst).Nodup) {k : String} {g₁ g₂ : List ProductRow}
    (h₁ : (k, g₁) ∈ gs) (h₂ : (k, g₂) ∈ gs) : g₁ = g₂ := by
  induction gs with
  | nil => simp at h₁
  | cons g rest ih =>
    simp only [List.map_cons, List.nodup_cons] at hnd
    rcases List.mem_cons.mp h₁ with e₁ | m₁ <;> rcases List.mem_cons.mp h₂ with e₂ | m₂
    · exact congrArg Prod.snd (e₁.trans e₂.symm)
    · have hk : g.1 = k := congrArg Prod.fst e₁.symm
      exact absurd (List.mem_map_of_mem Prod.fst m₂) (hk ▸ hnd.1)
    · have hk : g.1 = k := congrArg Prod.fst e₂.symm
      exact absurd (List.mem_map_of_mem Prod.fst m₁) (hk ▸ hnd.1)
    · exact ih hnd.2 m₁ m₂

/-! ### `groupResult` and `find_best_prices` membership -/

theorem groupResult_eq_some {gps : List ProductRow} {info : PriceInfo}
    (h : groupResult gps = some info) :
    minByPrice gps = some info.best_product ∧ info.all_prices = gps ∧
    info.savings = (if 1 < (posPrices gps).length
      then maxOrZero (posPrices gps) - minOrZero (posPrices gps) else 0) ∧
    info.range_min = minOrZero (posPrices gps) ∧
    info.range_max = maxOrZero (posPrices gps) := by
  unfold groupResult at h
  cases hm : minByPrice gps with
  | none => rw [hm] at h; exact absurd h (by simp)
  | some best =>
    rw [hm] at h
    simp only [Option.some.injEq] at h
    subst h
    exact ⟨rfl, rfl, rfl, rfl, rfl⟩

theorem groupResult_of_ne_nil {gps : List ProductRow} (h : gps ≠ []) :
    ∃ info, groupResult gps = some info ∧ info.all_prices = gps := by
  cases gps with
  | nil => exact absurd rfl h
  | cons p t => exact ⟨_, rfl, rfl⟩

theorem mem_find_best_prices {ps : List ProductRow} {e : String × PriceInfo} :
    e ∈ find_best_prices ps ↔
      ∃ g ∈ groupProducts ps, g.1 = e.1 ∧ groupResult g.2 = some e.2 := by
  unfold find_best_prices
  rw [List.mem_filterMap]
  constructor
  · rintro ⟨g, hg, hfe⟩
    rw [Option.map_eq_some'] at hfe
    obtain ⟨info, hinfo, heq⟩ := hfe
    exact ⟨g, hg, congrArg Prod.fst heq,
      by rw [hinfo]; exact congrArg some (congrArg Prod.snd heq)⟩
  · rintro ⟨g, hg, h1, h2⟩
    refine ⟨g, hg, ?_⟩
    rw [h2, Option.map_some', h1, Prod.mk.eta]

/-! ### Python `min`/`max` of a list of rationals -/

theorem foldl_min_mem (xs : List ℚ) :
    ∀ x : ℚ, xs.foldl min x = x ∨ xs.foldl min x ∈ xs := by
  induction xs with
  | nil => intro x; exact Or.inl rfl
  | cons y ys ih =>
    intro x
    simp only [List.foldl_cons]
    rcases ih (min x y) with h | h
    · rw [h]
      rcases le_total x y with hxy | hxy
      · exact Or.inl (min_eq_left hxy)
      · exact Or.inr (by rw [min_eq_right hxy]; exact List.mem_cons_self _ _)
    · exact Or.inr (List.mem_cons_of_mem _ h)

theorem foldl_min_le (xs : List ℚ) :
    ∀ x : ℚ, xs.foldl min x ≤ x ∧ ∀ q ∈ xs, xs.foldl min x ≤ q := by
  induction xs with
  | nil => intro x; exact ⟨le_refl x, by simp⟩
  | cons y ys ih =>
    intro x
    simp only [List.foldl_cons]
    obtain ⟨h1, h2⟩ := ih (min x y)
    refine ⟨le_trans h1 (min_le_left x y), ?_⟩
    intro q hq
    rcases List.mem_cons.mp hq with rfl | hq'
    · exact le_trans h1 (min_le_right x q)
    · exact h2 q hq'

theorem foldl_max_mem (xs : List ℚ) :
    ∀ x : ℚ, xs.foldl max x = x ∨ xs.foldl max x ∈ xs := by
  induction xs with
  | nil => intro x; exact Or.inl rfl
  | cons y ys ih =>
    intro x
    simp only [List.foldl_cons]
    rcases ih (max x y) with h | h
    · rw [h]
      rcases le_total x y with hxy | hxy
      · exact Or.inr (by rw [max_eq_right hxy]; exact List.mem_cons_self _ _)
      · exact Or.inl (max_eq_left hxy)
    · exact Or.inr (List.mem_cons_of_mem _ h)

theorem foldl_max_ge (xs : List ℚ) :
    ∀ x : ℚ, x ≤ xs.foldl max x ∧ ∀ q ∈ xs, q ≤ xs.foldl max x := by
  induction xs with
  | nil => intro x; exact ⟨le_refl x, by simp⟩
  | cons y ys ih =>
    intro x
    simp only [List.foldl_cons]
    obtain ⟨h1, h2⟩ := ih (max x y)
    refine ⟨le_trans (le_max_left x y) h1, ?_⟩
    intro q hq
    rcases List.mem_cons.mp hq with rfl | hq'
    · exact le_trans (le_max_right x q) h1
    · exact h2 q hq'

theorem minOrZero_spec {xs : List ℚ} (h : xs ≠ []) :
    minOrZero xs ∈ xs ∧ ∀ q ∈ xs, minOrZero xs ≤ q := by
  cases xs with
  | nil => exact absurd rfl h
  | cons x t =>
    simp only [minOrZero, listMinQ]
    constructor
    · rcases foldl_min_mem t x with h' | h'
      · rw [h']; exact List.mem_cons_self _ _
      · exact List.mem_cons_of_mem _ h'
    · intro q hq
      obtain ⟨h1, h2⟩ := foldl_min_le t x
      rcases List.mem_cons.mp hq with rfl | hq'
      · exact h1
      · exact h2 q hq'

theorem maxOrZero_spec {xs : List ℚ} (h : xs ≠ []) :
    maxOrZero xs ∈ xs ∧ ∀ q ∈ xs, q ≤ maxOrZero xs := by
  cases xs with
  | nil => exact absurd rfl h
  | cons x t =>
    simp only [maxOrZero, listMaxQ]
    constructor
    · rcases foldl_max_mem t x with h' | h'
      · rw [h']; exact List.mem_cons_self _ _
      · exact List.mem_cons_of_mem _ h'
    · intro q hq
      obtain ⟨h1, h2⟩ := foldl_max_ge t x
      rcases List.mem_cons.mp hq with rfl | hq'
      · exact h1
      · exact h2 q hq'

/-! ### The claims -/

/-- C1: for every group emitted by `find_best_prices`, `best_record` is a
member of the group attaining the minimum `current_price`, and every
record earlier in input order is strictly more expensive — Python `min`'s
stable first-minimum selection: on ties the first-encountered record
wins, with no re-sorting. -/
theorem C1_best_record_stable_min (all_products : List ProductRow)
    (e : String × PriceInfo) (he : e ∈ find_best_prices all_products) :
    e.2.best_product ∈ e.2.all_prices ∧
      (∀ q ∈ e.2.all_prices, e.2.best_product.current_price ≤ q.current_price) ∧
      FirstMin e.2.all_prices e.2.best_product := by
  obtain ⟨g, hg, h1, h2⟩ := mem_find_best_prices.mp he
  obtain ⟨hmin, hall, -, -, -⟩ := groupResult_eq_some h2
  have hf : FirstMin e.2.all_prices e.2.best_product := by
    rw [hall]; exact minByPrice_firstMin hmin
  exact ⟨hf.mem, hf.le_all, hf⟩

/-- C1 witness: in the tie group `[rowTie1, rowTie2, rowTie3]` (prices 5,
5, 7) the first record of the tie is selected. -/
theorem C1_best_record_stable_min_witness :
    infoTie.best_product ∈ infoTie.all_prices ∧
      (∀ q ∈ infoTie.all_prices, infoTie.best_product.current_price ≤ q.current_price) ∧
      FirstMin infoTie.all_prices infoTie.best_product := by
  have hmem : ("banana", infoTie) ∈ find_best_prices [rowTie1, rowTie2, rowTie3] := by
    have hb : normName "banana" = "banana" := by decide
    simp only [find_best_prices, groupProducts, insertGroup, groupResult, minByPrice, pickMin,
      posPrices, minOrZero, maxOrZero, listMinQ, listMaxQ,
      rowTie1, rowTie2, rowTie3, infoTie, hb,
      List.foldl, List.filter, List.map, List.filterMap, Option.map]
    norm_num [pickMin, min_def, max_def]
  exact C1_best_record_stable_min [rowTie1, rowTie2, rowTie3] ("banana", infoTie) hmem

/-- C2: savings and price_range are computed over the records with
positive price only: with at least two such records, `range_min` and
`range_max` are attained positive prices bounding all of them and
`savings = range_max − range_min`; with fewer than two, `savings = 0`
and the price range collapses to a single value. -/
theorem C2_savings_over_positive_prices (all_products : List ProductRow)
    (e : String × PriceInfo) (he : e ∈ find_best_prices all_products) :
    (2 ≤ (posPrices e.2.all_prices).length →
      e.2.range_min ∈ posPrices e.2.all_prices ∧
      e.2.range_max ∈ posPrices e.2.all_prices ∧
      (∀ q ∈ posPrices e.2.all_prices, e.2.range_min ≤ q ∧ q ≤ e.2.range_max) ∧
      e.2.savings = e.2.range_max - e.2.range_min) ∧
    ((posPrices e.2.all_prices).length < 2 →
      e.2.savings = 0 ∧ e.2.range_min = e.2.range_max) := by
  obtain ⟨g, hg, h1, h2⟩ := mem_find_best_prices.mp he
  obtain ⟨-, hall, hsav, hmin, hmax⟩ := groupResult_eq_some h2
  rw [hall, hsav, hmin, hmax]
  constructor
  · intro hlen
    have hne : posPrices g.2 ≠ [] := by
      intro hnil
      rw [hnil] at hlen
      simp at hlen
    obtain ⟨hm1, hm2⟩ := minOrZero_spec hne
    obtain ⟨hM1, hM2⟩ := maxOrZero_spec hne
    refine ⟨hm1, hM1, fun q hq => ⟨hm2 q hq, hM2 q hq⟩, ?_⟩
    rw [if_pos (by omega)]
  · intro hlen
    rw [if_neg (by omega)]
    refine ⟨rfl, ?_⟩
    cases hP : posPrices g.2 with
    | nil => rfl
    | cons x t =>
      cases t with
      | nil => rfl
      | cons y t' =>
        rw [hP] at hlen
        simp only [List.length_cons] at hlen
        omega

/-- C2 witness: the spec's example group with prices 19.99, 24.99, 26.99
is aggregated with savings 7.00 and price range 19.99–26.99. -/
theorem C2_savings_over_positive_prices_witness :
    ("bread", infoBread) ∈ find_best_prices [rowBread1, rowBread2, rowBread3] ∧
    infoBread.savings = 7 ∧
    infoBread.range_min = 1999/100 ∧
    infoBread.range_max = 2699/100 ∧
    (2 ≤ (posPrices infoBread.all_prices).length →
      infoBread.range_min ∈ posPrices infoBread.all_prices ∧
      infoBread.range_max ∈ posPrices infoBread.all_prices ∧
      (∀ q ∈ posPrices infoBread.all_prices,
        infoBread.range_min ≤ q ∧ q ≤ infoBread.range_max) ∧
      infoBread.savings = infoBread.range_max - infoBread.range_min) := by
  have hb : normName "bread" = "bread" := by decide
  have hmem : ("bread", infoBread) ∈ find_best_prices [rowBread1, rowBread2, rowBread3] := by
    simp only [find_best_prices, groupProducts, insertGroup, groupResult, minByPrice, pickMin,
      posPrices, minOrZero, maxOrZero, listMinQ, listMaxQ,
      rowBread1, rowBread2, rowBread3, infoBread, hb,
      List.foldl, List.filter, List.map, List.filterMap, Option.map]
    norm_num [pickMin, min_def, max_def]
  exact ⟨hmem, rfl, rfl, rfl,
    (C2_savings_over_positive_prices [rowBread1, rowBread2, rowBread3]
      ("bread", infoBread) hmem).1⟩

/-- C6: every emitted group is non-empty, all members of a group share
the group's normalized-name key, and any two input records agreeing on
the normalized name land in the same emitted group. -/
theorem C6_grouping_invariant (ps : List ProductRow) :
    (∀ e ∈ find_best_prices ps, e.2.all_prices ≠ [] ∧
      ∀ r ∈ e.2.all_prices, normName r.product_name = e.1) ∧
    (∀ r₁ ∈ ps, ∀ r₂ ∈ ps, normName r₁.product_name = normName r₂.product_name →
      ∃ e ∈ find_best_prices ps, r₁ ∈ e.2.all_prices ∧ r₂ ∈ e.2.all_prices) := by
  obtain ⟨hnd, hwf⟩ := groupProducts_wf ps
  constructor
  · intro e he
    obtain ⟨g, hg, h1, h2⟩ := mem_find_best_prices.mp he
    obtain ⟨-, hall, -, -, -⟩ := groupResult_eq_some h2
    obtain ⟨hne, hkey⟩ := hwf g hg
    rw [hall]
    exact ⟨hne, fun r hr => (hkey r hr).trans h1⟩
  · intro r₁ h₁ r₂ h₂ hkey
    obtain ⟨g₁, hg₁, hm₁⟩ := groupProducts_complete h₁
    obtain ⟨g₂, hg₂, hm₂⟩ := groupProducts_complete h₂
    rw [hkey] at hg₁
    have hgeq : g₁ = g₂ := nodup_keys_unique hnd hg₁ hg₂
    subst hgeq
    obtain ⟨info, hres, hall⟩ := groupResult_of_ne_nil (List.ne_nil_of_mem hm₁)
    refine ⟨(normName r₂.product_name, info), ?_, ?_, ?_⟩
    · exact mem_find_best_prices.mpr ⟨(normName r₂.product_name, g₁), hg₁, rfl, hres⟩
    · rw [hall]; exact hm₁
    · rw [hall]; exact hm₂

/-- C6 witness: `"Banana"` and `"banana "` normalize to the same key and
land in the same emitted group. -/
theorem C6_grouping_invariant_witness :
    ∃ e ∈ find_best_prices [rowMix1, rowMix2],
      rowMix1 ∈ e.2.all_prices ∧ rowMix2 ∈ e.2.all_prices :=
  (C6_grouping_invariant [rowMix1, rowMix2]).2 rowMix1 (by simp) rowMix2 (by simp)
    (by decide)

/-- C3 counterexample: `load_csv_data` sets an unparseable price to 0
(not null) and keeps the record, and `find_best_prices` then selects that
record as `best_record` of its group — it does participate. -/
theorem C3_counterexample :
    rawBad.priceParse = none ∧
    find_best_prices (load_csv_data [rawBad, rawGood]) = [("milk", infoMilk)] ∧
    infoMilk.best_product = convertRow rawBad := by
  refine ⟨rfl, ?_, rfl⟩
  have hm : normName "milk" = "milk" := by decide
  simp only [find_best_prices, load_csv_data, convertRow, groupProducts, insertGroup,
    groupResult, minByPrice, pickMin, posPrices, minOrZero, maxOrZero, listMinQ, listMaxQ,
    rawBad, rawGood, infoMilk, hm, List.foldl, List.filter, List.map, List.filterMap,
    Option.map, Option.getD]
  norm_num [pickMin, min_def, max_def]

/-- C3 amended (claim corrected): a record whose price fails to parse is
kept with `current_price = 0` — not null — and still participates in
aggregation: it appears among its group's `all_prices` (and can even win
the best-record selection, as the counterexample shows); it is excluded
only from the savings/price-range computation. -/
theorem C3_amended_zero_price_participates (rows : List RawRow) (r : RawRow)
    (hr : r ∈ rows) (hfail : r.priceParse = none) :
    (convertRow r).current_price = 0 ∧
    ∃ e ∈ find_best_prices (load_csv_data rows), convertRow r ∈ e.2.all_prices := by
  constructor
  · simp [convertRow, hfail]
  · have hmem : convertRow r ∈ load_csv_data rows := List.mem_map_of_mem convertRow hr
    obtain ⟨g, hg, hm⟩ := groupProducts_complete hmem
    obtain ⟨info, hres, hall⟩ := groupResult_of_ne_nil (List.ne_nil_of_mem hm)
    refine ⟨(normName (convertRow r).product_name, info), ?_, ?_⟩
    · exact mem_find_best_prices.mpr ⟨(normName (convertRow r).product_name, g), hg, rfl, hres⟩
    · rw [hall]; exact hm

/-- C3 witness: the unparseable milk row gets price 0 and stays in its
group. -/
theorem C3_amended_zero_price_participates_witness :
    (convertRow rawBad).current_price = 0 ∧
    ∃ e ∈ find_best_prices (load_csv_data [rawBad, rawGood]),
      convertRow rawBad ∈ e.2.all_prices :=
  C3_amended_zero_price_participates [rawBad, rawGood] rawBad (by simp) rfl

/-- C4 counterexample: the empty string is classified `"unknown"`, not
the `"in_stock"` default the claim states. -/
theorem C4_counterexample :
    parse_availability "" = "unknown" ∧ parse_availability "" ≠ "in_stock" :=
  ⟨rfl, by decide⟩

/-- C4 amended (claim corrected): classification is total into the fixed
four-value enum and deterministic by the keyword rule; a string holding a
low-stock keyword and no in-stock keyword maps to `low_stock`; but the
EMPTY string maps to `unknown`, and only a nonempty string with no
recognized keyword maps to the `in_stock` default. -/
theorem C4_amended_availability_total (s : String) :
    parse_availability s ∈ availabilityEnum ∧
    (s = "" → parse_availability s = "unknown") ∧
    (s ≠ "" → anyTermIn (pyLower s) lowStockTerms = true →
      anyTermIn (pyLower s) inStockTerms = false →
      parse_availability s = "low_stock") ∧
    (s ≠ "" → anyTermIn (pyLower s) inStockTerms = false →
      anyTermIn (pyLower s) lowStockTerms = false →
      anyTermIn (pyLower s) outStockTerms = false →
      parse_availability s = "in_stock") := by
  by_cases h0 : s = ""
  · subst h0
    exact ⟨by decide, fun _ => rfl, fun h => absurd rfl h, fun h => absurd rfl h⟩
  · refine ⟨?_, fun h => absurd h h0, ?_, ?_⟩
    · simp only [parse_availability]
      rw [if_neg h0]
      by_cases h1 : anyTermIn (pyLower s) inStockTerms = true
      · rw [if_pos h1]; decide
      · rw [if_neg h1]
        by_cases h2 : anyTermIn (pyLower s) lowStockTerms = true
        · rw [if_pos h2]; decide
        · rw [if_neg h2]
          by_cases h3 : anyTermIn (pyLower s) outStockTerms = true
          · rw [if_pos h3]; decide
          · rw [if_neg h3]; decide
    · intro _ h2 h1
      simp only [parse_availability]
      rw [if_neg h0, if_neg (by simp [h1]), if_pos h2]
    · intro _ h1 h2 h3
      simp only [parse_availability]
      rw [if_neg h0, if_neg (by simp [h1]), if_neg (by simp [h2]), if_neg (by simp [h3])]

/-- C4 witness: `"limited"` is nonempty, holds a low-stock keyword and no
in-stock keyword, and is classified `low_stock`. -/
theorem C4_amended_availability_total_witness :
    parse_availability "limited" = "low_stock" :=
  (C4_amended_availability_total "limited").2.2.1 (by decide) (by decide) (by decide)

/-- The scan of `sanitize_price` fails exactly on digit-free text. -/
theorem scanPrice_eq_none_iff (l : List Char) :
    scanPrice l = none ↔ ∀ c ∈ l, c.isDigit = false := by
  induction l with
  | nil => simp [scanPrice]
  | cons c cs ih =>
    by_cases hc : c.isDigit = true
    · simp only [scanPrice, if_pos hc]
      constructor
      · intro h; exact absurd h (by simp)
      · intro h; exact absurd (h c (List.mem_cons_self c cs)) (by simp [hc])
    · have hc' : c.isDigit = false := by simpa using hc
      simp only [scanPrice, if_neg hc]
      rw [ih]
      constructor
      · intro h d hd
        rcases List.mem_cons.mp hd with rfl | hd'
        · exact hc'
        · exact h d hd'
      · intro h d hd
        exact h d (List.mem_cons_of_mem c hd)

/-- C5: price sanitization extracts the first currency-like numeric token
("R24.99" ↦ 24.99, "Call for price" ↦ null), and returns null exactly
when the text is empty or contains no digit. -/
theorem C5_sanitize_price (s : String) :
    sanitize_price "R24.99" = some (2499/100) ∧
    sanitize_price "Call for price" = none ∧
    (sanitize_price s = none ↔ s = "" ∨ ∀ c ∈ s.data, c.isDigit = false) := by
  refine ⟨?_, by decide, ?_⟩
  · have hne : ¬("R24.99" = "") := by decide
    have hfil : "R24.99".data.filter (fun c => c ≠ ',') = "R24.99".data := by decide
    have hval : tokenVal ['2', '4', '.', '9', '9'] = 2499/100 := by
      have hrun : ['2', '4', '.', '9', '9'].takeWhile Char.isDigit = ['2', '4'] := by decide
      have hrest : ['2', '4', '.', '9', '9'].dropWhile Char.isDigit = ['.', '9', '9'] := by
        decide
      have hdv : digitsVal ['2', '4'] = 24 := by decide
      have hc : (10 * ('9'.toNat - 48) + ('9'.toNat - 48) : ℕ) = 99 := by decide
      have h9 : '9'.isDigit = true := by decide
      simp only [tokenVal, hrun, hrest, h9, hdv, hc, Bool.and_self, if_true]
      norm_num
    calc sanitize_price "R24.99"
        = scanPrice ("R24.99".data.filter (fun c => c ≠ ',')) := by
          simp only [sanitize_price, if_neg hne]
      _ = some (tokenVal ['2', '4', '.', '9', '9']) := by rw [hfil]; rfl
      _ = some (2499/100) := by rw [hval]
  · by_cases h0 : s = ""
    · subst h0
      simp [sanitize_price]
    · simp only [sanitize_price, if_neg h0]
      rw [scanPrice_eq_none_iff]
      constructor
      · intro h
        right
        intro c hc
        by_cases hcd : c.isDigit = true
        · have hcc : c ≠ ',' := by rintro rfl; simp at hcd
          have hcf : c ∈ s.data.filter (fun c => c ≠ ',') :=
            List.mem_filter.mpr ⟨hc, by simp [hcc]⟩
          exact absurd (h c hcf) (by simp [hcd])
        · simpa using hcd
      · intro h
        rcases h with h | h
        · exact absurd h h0
        · intro c hc
          exact h c (List.mem_filter.mp hc).1

/-- C5 witness: the theorem instantiated at "Call for price". -/
theorem C5_sanitize_price_witness :
    sanitize_price "R24.99" = some (2499/100) ∧
    sanitize_price "Call for price" = none ∧
    (sanitize_price "Call for price" = none ↔ "Call for price" = "" ∨
      ∀ c ∈ "Call for price".data, c.isDigit = false) :=
  C5_sanitize_price "Call for price"

/-- C7: aggregation is a pure deterministic function of the merged input
sequence: two runs on the same input produce identical `BestPriceResult`
lists (same groups, same fields, same order). -/
theorem C7_aggregation_deterministic (ps₁ ps₂ : List ProductRow) (h : ps₁ = ps₂) :
    find_best_prices ps₁ = find_best_prices ps₂ :=
  congrArg find_best_prices h

/-- C7 witness: re-running on the demonstration input gives the same
result. -/
theorem C7_aggregation_deterministic_witness :
    find_best_prices [rowTie1, rowTie2, rowTie3] =
      find_best_prices [rowTie1, rowTie2, rowTie3] :=
  C7_aggregation_deterministic [rowTie1, rowTie2, rowTie3] [rowTie1, rowTie2, rowTie3] rfl

/-! ### Validator (claim C8) -/

theorem recordErrors_eq_nil_iff (i : ℕ) (p : Product) :
    recordErrors i p = [] ↔
      p.product_name ≠ "" ∧ 0 < p.current_price ∧ p.retailer ≠ "" ∧
        p.availability_status ∈ availabilityEnum := by
  have hiff : (p.current_price = 0 ∨ p.current_price ≤ 0) ↔ ¬0 < p.current_price := by
    rw [or_iff_right_of_imp le_of_eq, not_lt]
  simp only [recordErrors, hiff]
  by_cases h1 : p.product_name = "" <;>
    by_cases h2 : 0 < p.current_price <;>
      by_cases h3 : p.retailer = "" <;>
        by_cases h4 : p.availability_status ∈ availabilityEnum <;>
          simp [h1, h2, h3, h4]

theorem validationErrors_eq_nil_iff (ps : List Product) :
    ∀ i, validationErrors i ps = [] ↔
      ∀ p ∈ ps, p.product_name ≠ "" ∧ 0 < p.current_price ∧ p.retailer ≠ "" ∧
        p.availability_status ∈ availabilityEnum := by
  induction ps with
  | nil => intro i; simp [validationErrors]
  | cons p t ih =>
    intro i
    simp only [validationErrors, List.append_eq_nil]
    rw [recordErrors_eq_nil_iff, ih (i + 1)]
    constructor
    · rintro ⟨hp, ht⟩ q hq
      rcases List.mem_cons.mp hq with rfl | hq'
      · exact hp
      · exact ht q hq'
    · intro h
      exact ⟨h p (List.mem_cons_self p t), fun q hq => h q (List.mem_cons_of_mem p hq)⟩

/-- C8: the validator returns `(valid, errors)` with `valid` true iff
`errors` is empty, and `errors` is empty exactly when every record has a
non-empty name, a price strictly greater than 0 (the price field of the
`Product` dataclass is always present), a non-empty retailer, and an
availability status in the fixed four-value enum. -/
theorem C8_validator (products : List Product) :
    ((validate_data_integrity products).1 = true ↔
      (validate_data_integrity products).2 = []) ∧
    ((validate_data_integrity products).2 = [] ↔
      ∀ p ∈ products, p.product_name ≠ "" ∧ 0 < p.current_price ∧ p.retailer ≠ "" ∧
        p.availability_status ∈ availabilityEnum) := by
  constructor
  · simp only [validate_data_integrity, beq_iff_eq, List.length_eq_zero]
  · exact validationErrors_eq_nil_iff products 0

/-- A record passing all four validator checks. -/
def prodOk : Product := ⟨"Bread", 5, "in_stock", "t", "Checkers", "Bakery", "700g", "", "p1"⟩

/-- C8 witness: a concrete valid batch validates with no errors. -/
theorem C8_validator_witness :
    (validate_data_integrity [prodOk]).1 = true ∧
      (validate_data_integrity [prodOk]).2 = [] := by
  have h := C8_validator [prodOk]
  have he : (validate_data_integrity [prodOk]).2 = [] := by
    rw [h.2]
    intro p hp
    rw [List.mem_singleton.mp hp]
    exact ⟨by decide, by norm_num [prodOk], by decide, by decide⟩
  exact ⟨h.1.mpr he, he⟩

/-! ### Presentation adapter (claims C9 and C10) -/

theorem buildEntries_fst_length (l : List (String × PriceInfo)) :
    ∀ pid prid, (buildEntries pid prid l).1.length = l.length := by
  induction l with
  | nil => intro pid prid; rfl
  | cons g rest ih =>
    intro pid prid
    simp only [buildEntries, List.length_cons]
    rw [ih]

theorem buildEntries_fst_map_id (l : List (String × PriceInfo)) :
    ∀ pid prid, (buildEntries pid prid l).1.map ProductEntry.id =
      (List.range l.length).map (fun i => toString (pid + i)) := by
  induction l with
  | nil => intro pid prid; rfl
  | cons g rest ih =>
    intro pid prid
    have hr : List.range (rest.length + 1) = 0 :: (List.range rest.length).map Nat.succ :=
      List.range_succ_eq_map rest.length
    simp only [buildEntries, List.map_cons, List.length_cons]
    rw [hr, List.map_cons, List.map_map, ih]
    refine congrArg₂ List.cons ?_ ?_
    · simp [mkProductEntry]
    · apply List.map_congr_left
      intro i hi
      simp only [Function.comp_apply]
      exact congrArg toString (by omega)

theorem priceEntriesFor_mem (rs : List ProductRow) :
    ∀ pid prid pe, pe ∈ priceEntriesFor pid prid rs →
      ∃ r prid', r ∈ rs ∧ pe = mkPriceEntry pid prid' r := by
  induction rs with
  | nil => intro pid prid pe h; simp [priceEntriesFor] at h
  | cons r t ih =>
    intro pid prid pe h
    simp only [priceEntriesFor] at h
    rcases List.mem_cons.mp h with rfl | h'
    · exact ⟨r, prid, List.mem_cons_self _ _, rfl⟩
    · obtain ⟨r', prid', hr', heq⟩ := ih pid (prid + 1) pe h'
      exact ⟨r', prid', List.mem_cons_of_mem r hr', heq⟩

theorem buildEntries_snd_mem (l : List (String × PriceInfo)) :
    ∀ pid prid pe, pe ∈ (buildEntries pid prid l).2 →
      ∃ i g r prid', l.get? i = some g ∧ r ∈ g.2.all_prices ∧
        pe = mkPriceEntry (pid + i) prid' r := by
  induction l with
  | nil => intro pid prid pe h; simp [buildEntries] at h
  | cons g rest ih =>
    intro pid prid pe h
    simp only [buildEntries] at h
    rcases List.mem_append.mp h with h' | h'
    · obtain ⟨r, prid', hr, heq⟩ := priceEntriesFor_mem g.2.all_prices pid prid pe h'
      exact ⟨0, g, r, prid', rfl, hr, by rw [heq, Nat.add_zero]⟩
    · obtain ⟨i, g', r, prid', hg', hr, heq⟩ :=
        ih (pid + 1) (prid + g.2.all_prices.length) pe h'
      refine ⟨i + 1, g', r, prid', by simpa using hg', hr, ?_⟩
      rw [heq]
      congr 1
      omega

theorem buildEntries_fst_get (l : List (String × PriceInfo)) :
    ∀ pid prid i g, l.get? i = some g →
      (buildEntries pid prid l).1.get? i =
        some (mkProductEntry (pid + i) g.2.best_product) := by
  induction l with
  | nil => intro pid prid i g h; simp at h
  | cons g₀ rest ih =>
    intro pid prid i g h
    cases i with
    | zero =>
      have hg : g₀ = g := by simpa using h
      subst hg
      simp [buildEntries]
    | succ i =>
      have h' : rest.get? i = some g := by simpa using h
      have := ih (pid + 1) (prid + g₀.2.all_prices.length) i g h'
      simp only [buildEntries, List.get?_cons_succ]
      rw [this]
      congr 2
      omega

/-- C9: the adapter emits exactly `min |bp| 20` product entries — only
the first 20 groups, in encounter order, are mapped and the rest are
dropped; product ids are the synthetic sequential strings "1", "2", …;
and every emitted price entry is built from a record of one of the
emitted groups, with `productId` equal to the id of its group's product
entry. -/
theorem C9_adapter_cap_and_ids (bp : List (String × PriceInfo)) :
    (generate_mock_data_update bp).products.length = min bp.length 20 ∧
    (generate_mock_data_update bp).products.map ProductEntry.id =
      (List.range (min bp.length 20)).map (fun i => toString (i + 1)) ∧
    ∀ pe ∈ (generate_mock_data_update bp).prices,
      ∃ i g r prid, bp.get? i = some g ∧ i < 20 ∧ r ∈ g.2.all_prices ∧
        pe = mkPriceEntry (i + 1) prid r ∧
        (generate_mock_data_update bp).products.get? i =
          some (mkProductEntry (i + 1) g.2.best_product) ∧
        pe.productId = (mkProductEntry (i + 1) g.2.best_product).id := by
  have hlen : (bp.take 20).length = min bp.length 20 := by
    rw [List.length_take]
    exact Nat.min_comm _ _
  refine ⟨?_, ?_, ?_⟩
  · simp only [generate_mock_data_update]
    rw [buildEntries_fst_length, hlen]
  · simp only [generate_mock_data_update]
    rw [buildEntries_fst_map_id, hlen]
    apply List.map_congr_left
    intro i _
    exact congrArg toString (by omega)
  · intro pe hpe
    simp only [generate_mock_data_update] at hpe
    obtain ⟨i, g, r, prid', hg, hr, heq⟩ := buildEntries_snd_mem (bp.take 20) 1 1 pe hpe
    have hi20 : i < 20 := by
      have hlt := List.get?_eq_some.mp hg
      have := hlt.1
      rw [List.length_take] at this
      omega
    have hbp : bp.get? i = some g := by
      rw [← List.get?_take hi20]
      exact hg
    refine ⟨i, g, r, prid', hbp, hi20, hr, ?_, ?_, ?_⟩
    · rw [heq]
      congr 1
      omega
    · simp only [generate_mock_data_update]
      rw [buildEntries_fst_get (bp.take 20) 1 1 i g hg]
      congr 2
      omega
    · rw [heq]
      simp only [mkPriceEntry, mkProductEntry]
      exact congrArg toString (by omega)

/-- A minimal `PriceInfo` carrying a given savings value. -/
def infoFlat (q : ℚ) : PriceInfo := ⟨rowTie1, [rowTie1], q, 0, 0⟩

/-- 21 product groups — one more than the emission cap. -/
def bp21 : List (String × PriceInfo) := List.replicate 21 ("g", infoFlat 10)

/-- C9 witness: with 21 groups the adapter emits exactly 20 product
entries, with ids "1", …, "20". -/
theorem C9_adapter_cap_and_ids_witness :
    (generate_mock_data_update bp21).products.length = min bp21.length 20 ∧
    (generate_mock_data_update bp21).products.map ProductEntry.id =
      (List.range (min bp21.length 20)).map (fun i => toString (i + 1)) := by
  have h := C9_adapter_cap_and_ids bp21
  exact ⟨h.1, h.2.1⟩

/-- C10: `avgSavings` is total — 0 on an empty best-price mapping (the
division is guarded) and otherwise the sum of savings over ALL groups
(not only the ≤ 20 emitted ones) divided by the number of groups. -/
theorem C10_avg_savings_total (bp : List (String × PriceInfo)) :
    (generate_mock_data_update []).summary.avgSavings = 0 ∧
    (generate_mock_data_update bp).summary.avgSavings =
      (if bp = [] then 0 else sumSavings bp / bp.length) ∧
    (generate_mock_data_update bp).products.length ≤ 20 := by
  refine ⟨rfl, rfl, ?_⟩
  simp only [generate_mock_data_update]
  rw [buildEntries_fst_length, List.length_take]
  omega

/-- C10 witness: with 21 groups of savings 10 each, the average counts
all 21 groups (210 / 21 = 10) even though only 20 products are
emitted. -/
theorem C10_avg_savings_total_witness :
    (generate_mock_data_update bp21).summary.avgSavings = 10 ∧
    (generate_mock_data_update bp21).products.length ≤ 20 ∧
    bp21.length = 21 := by
  have h := C10_avg_savings_total bp21
  refine ⟨?_, h.2.2, by simp [bp21]⟩
  rw [h.2.1, if_neg (by simp [bp21])]
  simp only [bp21, sumSavings, infoFlat, List.map_replicate, List.sum_replicate,
    List.length_replicate, nsmul_eq_mul]
  norm_num

end BudgetSakkie
